import Mathlib

/-!
Shallow embedding of the EDF I/O scheduler in src/block/edf-iosched.c
(robcore/Hulk-Kernel-V2).

Modelling conventions:
  * A `struct request` is identified by a natural number.  The scheduler
    only reads two things from a request: its data direction
    (`rq_data_dir`, here passed explicitly to `edf_add_request`) and its
    fifo time (`rq_fifo_time`, held in the `fifo_time` map of the state).
  * The intrusive `queuelist` membership is modelled by the two queue
    lists `read_list`/`write_list` of `edf_data`; `list_empty(&rq->queuelist)`
    becomes (the negation of) membership in one of them.
  * `jiffies`, `unsigned long` and `unsigned int` are 32 bits wide on this
    ARM kernel; arithmetic that can wrap is taken modulo `W = 2 ^ 32` and
    `time_before` is the kernel's wrapping comparison
    `(long)(a - b) < 0`.
  * `rq_fifo_clear` does `list_del_init(&rq->queuelist)` (and re-inits the
    csd list head, which aliases the stored fifo time).  The model drops
    the request from the queues and keeps the stale fifo time, which no
    linked request ever observes.
-/

/-- `2 ^ 32`: one past the largest `unsigned int` / `unsigned long` on the
32-bit ARM target. -/
def W : Nat := 4294967296

/-- `2 ^ 31`: the first value whose 32-bit pattern is negative as a `long`. -/
def HW : Nat := 2147483648

/-- The data direction of a request (`rq_data_dir`). -/
inductive Dir where
  | read
  | write
deriving DecidableEq

/-- `struct edf_data` together with the per-request fifo times. -/
structure edf_data where
  read_list : List Nat
  write_list : List Nat
  batched_requests : Nat
  merged_requests : Nat
  timeslice_quanta : Nat
  read_weight : Nat
  write_weight : Nat
  fifo_time : Nat → Nat

/-- The kernel's `time_before(a, b)`: `(long)(a - b) < 0` on 32-bit
unsigned longs, i.e. the wrapped difference lands in the negative half. -/
def time_before (a b : Nat) : Bool :=
  decide (HW ≤ (a % W + (W - b % W)) % W)

/-- `edf_read_expiry`: `jiffies + edf->timeslice_quanta * edf->read_weight`
in 32-bit arithmetic. -/
def edf_read_expiry (edf : edf_data) (jiffies : Nat) : Nat :=
  (jiffies + edf.timeslice_quanta * edf.read_weight) % W

/-- `edf_write_expiry`: `jiffies + edf->timeslice_quanta * edf->write_weight`
in 32-bit arithmetic. -/
def edf_write_expiry (edf : edf_data) (jiffies : Nat) : Nat :=
  (jiffies + edf.timeslice_quanta * edf.write_weight) % W

/-- A request is linked (`!list_empty(&rq->queuelist)` while owned by this
scheduler): it is a member of one of the two queues. -/
def linked (edf : edf_data) (rq : Nat) : Prop :=
  rq ∈ edf.read_list ∨ rq ∈ edf.write_list

instance (edf : edf_data) (rq : Nat) : Decidable (linked edf rq) := by
  unfold linked; exact inferInstance

/-- Insert `x` right after the first occurrence of `pos`; the list part of
`list_add(&x, &pos)` used by `list_move`.  A no-op when `pos` is absent. -/
def insertAfter : List Nat → Nat → Nat → List Nat
  | [], _, _ => []
  | a :: rest, pos, x =>
      if a = pos then a :: x :: rest else a :: insertAfter rest pos x

/-- `edf_merge_request(q, node, next)`:
return untouched if either request is already cleared; if `next` expires
before `node`, move `node` right after `next` (`list_move`), give `node`
`next`'s fifo time and bump the merge counter; finally clear `next`
(`rq_fifo_clear`). -/
def edf_merge_request (edf : edf_data) (node next : Nat) : edf_data :=
  if ¬ linked edf node ∨ ¬ linked edf next then edf
  else
    let edf1 :=
      if time_before (edf.fifo_time next) (edf.fifo_time node) then
        { edf with
          read_list := insertAfter (edf.read_list.erase node) next node,
          write_list := insertAfter (edf.write_list.erase node) next node,
          fifo_time := fun r => if r = node then edf.fifo_time next else edf.fifo_time r,
          merged_requests := (edf.merged_requests + 1) % W }
      else edf
    { edf1 with
      read_list := edf1.read_list.erase next,
      write_list := edf1.write_list.erase next }

/-- `edf_add_request(q, rq)`: compute the direction's expiry, store it as the
request's fifo time and append the request to the matching list's tail. -/
def edf_add_request (edf : edf_data) (rq : Nat) (dir : Dir) (jiffies : Nat) :
    edf_data :=
  let deadline := match dir with
    | Dir.read => edf_read_expiry edf jiffies
    | Dir.write => edf_write_expiry edf jiffies
  match dir with
  | Dir.read =>
      { edf with
        read_list := edf.read_list ++ [rq],
        fifo_time := fun r => if r = rq then deadline else edf.fifo_time r }
  | Dir.write =>
      { edf with
        write_list := edf.write_list ++ [rq],
        fifo_time := fun r => if r = rq then deadline else edf.fifo_time r }

/-- What one `edf_dispatch_queue` walk produces: the requests handed to
`elv_dispatch_add_tail` in order, the queue that remains, the updated
`batched_requests` counter and the returned `ctr`. -/
structure QueueRun where
  dispatched : List Nat
  remaining : List Nat
  batched : Nat
  ctr : Nat
deriving Repr

/-- `edf_dispatch_queue(q, edf, head)`: walk from the head; stop at the
first request whose fifo time is still after `jiffies`; clear and dispatch
every request before that point, bumping `batched_requests` and `ctr`. -/
def edf_dispatch_queue (ft : Nat → Nat) (jiffies batched : Nat) :
    List Nat → QueueRun
  | [] => ⟨[], [], batched, 0⟩
  | node :: rest =>
    if time_before jiffies (ft node) then ⟨[], node :: rest, batched, 0⟩
    else
      let r := edf_dispatch_queue ft jiffies ((batched + 1) % W) rest
      ⟨node :: r.dispatched, r.remaining, r.batched, r.ctr + 1⟩

/-- What `edf_dispatch` produces: the new scheduler state, the requests
dispatched (reads then writes, in queue order) and the returned count. -/
structure DispatchResult where
  edf : edf_data
  dispatched : List Nat
  ret : Nat

/-- `edf_dispatch(q, force)`: drain the due prefix of the read list, then of
the write list; `force` is never read. -/
def edf_dispatch (edf : edf_data) (jiffies : Nat) (force : Int) : DispatchResult :=
  let r1 := edf_dispatch_queue edf.fifo_time jiffies edf.batched_requests edf.read_list
  let r2 := edf_dispatch_queue edf.fifo_time jiffies r1.batched edf.write_list
  { edf := { edf with
      read_list := r1.remaining,
      write_list := r2.remaining,
      batched_requests := r2.batched },
    dispatched := r1.dispatched ++ r2.dispatched,
    ret := r1.ctr + r2.ctr }

/-- The element before the first occurrence of `x`, `none` when `x` leads
the list or is absent; the list part of `edf_former_request`. -/
def formerIn : List Nat → Nat → Option Nat
  | [], _ => none
  | a :: rest, x =>
    if a = x then none
    else
      match rest with
      | [] => none
      | b :: _ => if b = x then some a else formerIn rest x

/-- The element after the first occurrence of `x`, `none` when `x` ends the
list or is absent; the list part of `edf_latter_request`. -/
def latterIn : List Nat → Nat → Option Nat
  | [], _ => none
  | a :: rest, x => if a = x then rest.head? else latterIn rest x

/-- `edf_former_request`: the neighbour toward the head in the direction's
queue.  Read-only: it returns a request and changes no state. -/
def edf_former_request (edf : edf_data) (rq : Nat) (dir : Dir) : Option Nat :=
  match dir with
  | Dir.read => formerIn edf.read_list rq
  | Dir.write => formerIn edf.write_list rq

/-- `edf_latter_request`: the neighbour toward the tail in the direction's
queue.  Read-only: it returns a request and changes no state. -/
def edf_latter_request (edf : edf_data) (rq : Nat) (dir : Dir) : Option Nat :=
  match dir with
  | Dir.read => latterIn edf.read_list rq
  | Dir.write => latterIn edf.write_list rq

/-- `edf_init_queue` (with `timeslice_quanta = 2 * HZ`): zeroed counters,
empty lists, weights 2 and 4. -/
def edf_init_queue (hz : Nat) : edf_data :=
  { read_list := []
    write_list := []
    batched_requests := 0
    merged_requests := 0
    timeslice_quanta := 2 * hz % W
    read_weight := 2
    write_weight := 4
    fifo_time := fun _ => 0 }

/-- `INT_MAX` of the 32-bit target. -/
def INT_MAX : Int := 2147483647

/-- The clamp the `STORE_FUNCTION` macro applies to the parsed `int`
(`MIN = 0`, `MAX = INT_MAX`). -/
def store_clamped (v : Int) : Int :=
  if v < 0 then 0 else if v > INT_MAX then INT_MAX else v

/-- Modelled from the spec: the kernel's `msecs_to_jiffies` (not under
src/) converts the administrative millisecond value to logical ticks; the
spec says the quantum is "expressed to callers in time units (e.g.,
milliseconds) and stored internally in logical ticks".  With `hz` ticks
per second the kernel rounds up: `ticks = ceil(ms * hz / 1000)`. -/
def msecs_to_jiffies (hz m : Nat) : Nat :=
  (m * hz + 999) / 1000

/-- `edf_sysfs_read_weight_store`: clamp the parsed value to `[0, INT_MAX]`,
store it and report the whole input as consumed.  `page` parsing is
abstracted to the parsed `int` value `data`. -/
def edf_sysfs_read_weight_store (edf : edf_data) (data : Int) (count : Nat) :
    edf_data × Nat :=
  ({ edf with read_weight := (store_clamped data).toNat }, count)

/-- `edf_sysfs_write_weight_store`: as for the read weight. -/
def edf_sysfs_write_weight_store (edf : edf_data) (data : Int) (count : Nat) :
    edf_data × Nat :=
  ({ edf with write_weight := (store_clamped data).toNat }, count)

/-- `edf_sysfs_timeslice_quanta_store` (`__CONV = 1`): clamp, convert
milliseconds to ticks, store. -/
def edf_sysfs_timeslice_quanta_store (hz : Nat) (edf : edf_data) (data : Int)
    (count : Nat) : edf_data × Nat :=
  ({ edf with timeslice_quanta := msecs_to_jiffies hz (store_clamped data).toNat },
   count)

/-- `edf_sysfs_batched_requests_store` (`DUMMY_STORE_FUNCTION`): report the
input consumed, change nothing. -/
def edf_sysfs_batched_requests_store (edf : edf_data) (data : Int) (count : Nat) :
    edf_data × Nat :=
  (edf, count)

/-- `edf_sysfs_merged_requests_store` (`DUMMY_STORE_FUNCTION`): report the
input consumed, change nothing. -/
def edf_sysfs_merged_requests_store (edf : edf_data) (data : Int) (count : Nat) :
    edf_data × Nat :=
  (edf, count)

/-- The weight the deadline formula applies to a direction. -/
def dir_weight (edf : edf_data) : Dir → Nat
  | Dir.read => edf.read_weight
  | Dir.write => edf.write_weight

/-- A request is due at `jiffies` when its fifo time is not in the future:
the negation of `edf_dispatch_queue`'s stopping test. -/
def due (ft : Nat → Nat) (jiffies x : Nat) : Bool :=
  ! time_before jiffies (ft x)

/-- The intrusive-list well-formedness the kernel maintains: no request
appears twice in a queue, and no request is in both queues. -/
structure WF (edf : edf_data) : Prop where
  nodup_read : edf.read_list.Nodup
  nodup_write : edf.write_list.Nodup
  disjoint : ∀ rq ∈ edf.read_list, rq ∉ edf.write_list

/-! ### Arithmetic and list helper lemmas -/

/-- In the non-wrapping range (both operands below `2 ^ 31`) the kernel's
`time_before` is the strict numeric order. -/
theorem time_before_iff_lt {a b : Nat} (ha : a < HW) (hb : b < HW) :
    time_before a b = true ↔ a < b := by
  unfold time_before HW at *
  unfold W at *
  rcases Nat.lt_or_ge a b with h | h
  · simp only [decide_eq_true_eq]
    constructor
    · intro _; exact h
    · intro _; omega
  · simp only [decide_eq_true_eq]
    constructor
    · intro hc
      exfalso
      omega
    · intro hc; omega

/-- `time_before` never holds of equal times. -/
theorem time_before_self (a : Nat) : time_before a a = false := by
  unfold time_before
  simp only [decide_eq_false_iff_not, not_le]
  unfold HW W
  omega

/-- `insertAfter` at a head that is the anchor. -/
theorem insertAfter_cons_self (a x : Nat) (rest : List Nat) :
    insertAfter (a :: rest) a x = a :: x :: rest := by
  simp [insertAfter]

/-- `insertAfter` at a head that is not the anchor. -/
theorem insertAfter_cons_ne {a pos : Nat} (x : Nat) (rest : List Nat)
    (h : a ≠ pos) : insertAfter (a :: rest) pos x = a :: insertAfter rest pos x := by
  simp [insertAfter, h]

/-- Membership after `insertAfter`: the old members, plus `x` when `pos`
was present. -/
theorem mem_insertAfter {l : List Nat} {pos x y : Nat} :
    y ∈ insertAfter l pos x ↔ y ∈ l ∨ (pos ∈ l ∧ y = x) := by
  induction l with
  | nil => simp [insertAfter]
  | cons a rest ih =>
    by_cases h : a = pos
    · subst h
      rw [insertAfter_cons_self]
      simp only [List.mem_cons, true_or, true_and]
      tauto
    · rw [insertAfter_cons_ne x rest h]
      simp only [List.mem_cons, ih]
      constructor
      · rintro (hy | hy | ⟨hp, hy⟩) <;> tauto
      · rintro ((hy | hy) | ⟨hp | hp, hy⟩)
        · exact Or.inl hy
        · exact Or.inr (Or.inl hy)
        · exact absurd hp.symm h
        · exact Or.inr (Or.inr ⟨hp, hy⟩)

/-- `insertAfter` does nothing when the anchor is absent. -/
theorem insertAfter_of_not_mem {l : List Nat} {pos x : Nat} (h : pos ∉ l) :
    insertAfter l pos x = l := by
  induction l with
  | nil => rfl
  | cons a rest ih =>
    rw [insertAfter_cons_ne x rest (by intro hh; exact h (hh ▸ List.mem_cons_self a rest)),
      ih (fun hh => h (List.mem_cons_of_mem a hh))]

/-- `insertAfter` keeps a list duplicate-free when the inserted element is
new. -/
theorem nodup_insertAfter {l : List Nat} {pos x : Nat} (hd : l.Nodup)
    (hx : x ∉ l) : (insertAfter l pos x).Nodup := by
  induction l with
  | nil => exact hd
  | cons a rest ih =>
    rcases List.nodup_cons.mp hd with ⟨ha, hrest⟩
    by_cases h : a = pos
    · subst h
      rw [insertAfter_cons_self]
      refine List.nodup_cons.mpr ⟨?_, List.nodup_cons.mpr ⟨?_, hrest⟩⟩
      · intro hc
        rcases List.mem_cons.mp hc with hc | hc
        · exact hx (hc ▸ List.mem_cons_self a rest)
        · exact ha hc
      · exact fun hc => hx (List.mem_cons_of_mem a hc)
    · rw [insertAfter_cons_ne x rest h]
      refine List.nodup_cons.mpr ⟨?_, ih hrest (fun hc => hx (List.mem_cons_of_mem a hc))⟩
      intro hc
      rcases mem_insertAfter.mp hc with hc | ⟨-, hc⟩
      · exact ha hc
      · exact hx (hc ▸ List.mem_cons_self a rest)

/-- Substituting an absent element is the identity. -/
theorem map_subst_of_not_mem {l : List Nat} {pos x : Nat} (h : pos ∉ l) :
    l.map (fun r => if r = pos then x else r) = l := by
  induction l with
  | nil => rfl
  | cons a rest ih =>
    simp only [List.map_cons]
    rw [if_neg (by intro hh; exact h (hh ▸ List.mem_cons_self a rest)),
      ih (fun hh => h (List.mem_cons_of_mem a hh))]

/-- Inserting `x` after `pos` and then erasing `pos` replaces `pos` by `x`
in place (lists without duplicates). -/
theorem erase_insertAfter {l : List Nat} {pos x : Nat} (hd : l.Nodup)
    (hp : pos ∈ l) : (insertAfter l pos x).erase pos =
      l.map (fun r => if r = pos then x else r) := by
  induction l with
  | nil => cases hp
  | cons a rest ih =>
    rcases List.nodup_cons.mp hd with ⟨ha, hrest⟩
    by_cases h : a = pos
    · subst h
      rw [insertAfter_cons_self, List.erase_cons_head, List.map_cons, if_pos rfl,
        map_subst_of_not_mem ha]
    · have hp' : pos ∈ rest := by
        rcases List.mem_cons.mp hp with hp | hp
        · exact absurd hp.symm h
        · exact hp
      rw [insertAfter_cons_ne x rest h, List.map_cons, if_neg h, ← ih hrest hp']
      exact List.erase_cons_tail (by simp [h])

/-- The requests `edf_dispatch_queue` dispatches are the longest due prefix
of the queue. -/
theorem dispatch_queue_dispatched (ft : Nat → Nat) (jiffies : Nat) :
    ∀ (l : List Nat) (batched : Nat),
      (edf_dispatch_queue ft jiffies batched l).dispatched =
        l.takeWhile (due ft jiffies) := by
  intro l
  induction l with
  | nil => intro b; rfl
  | cons a rest ih =>
    intro b
    by_cases h : time_before jiffies (ft a)
    · simp [edf_dispatch_queue, h, due, List.takeWhile_cons]
    · simp [edf_dispatch_queue, h, due, List.takeWhile_cons, ih]

/-- The queue `edf_dispatch_queue` leaves behind is everything from the
first not-yet-due request on. -/
theorem dispatch_queue_remaining (ft : Nat → Nat) (jiffies : Nat) :
    ∀ (l : List Nat) (batched : Nat),
      (edf_dispatch_queue ft jiffies batched l).remaining =
        l.dropWhile (due ft jiffies) := by
  intro l
  induction l with
  | nil => intro b; rfl
  | cons a rest ih =>
    intro b
    by_cases h : time_before jiffies (ft a)
    · simp [edf_dispatch_queue, h, due, List.dropWhile_cons]
    · simp [edf_dispatch_queue, h, due, List.dropWhile_cons, ih]

/-- `edf_dispatch_queue` returns the number of requests it dispatched. -/
theorem dispatch_queue_ctr (ft : Nat → Nat) (jiffies : Nat) :
    ∀ (l : List Nat) (batched : Nat),
      (edf_dispatch_queue ft jiffies batched l).ctr =
        (edf_dispatch_queue ft jiffies batched l).dispatched.length := by
  intro l
  induction l with
  | nil => intro b; rfl
  | cons a rest ih =>
    intro b
    by_cases h : time_before jiffies (ft a)
    · simp [edf_dispatch_queue, h]
    · simp [edf_dispatch_queue, h, ih]

/-- `edf_dispatch_queue` advances `batched_requests` by its count, in
32-bit arithmetic. -/
theorem dispatch_queue_batched (ft : Nat → Nat) (jiffies : Nat) :
    ∀ (l : List Nat) (batched : Nat), batched < W →
      (edf_dispatch_queue ft jiffies batched l).batched =
        (batched + (edf_dispatch_queue ft jiffies batched l).ctr) % W := by
  intro l
  induction l with
  | nil =>
    intro b hb
    simp [edf_dispatch_queue, Nat.mod_eq_of_lt hb]
  | cons a rest ih =>
    intro b hb
    by_cases h : time_before jiffies (ft a)
    · simp [edf_dispatch_queue, h, Nat.mod_eq_of_lt hb]
    · have hb1 : (b + 1) % W < W := Nat.mod_lt _ (by unfold W; omega)
      have hf : time_before jiffies (ft a) = false := by simpa using h
      simp only [edf_dispatch_queue, hf, Bool.false_eq_true, if_false]
      rw [ih ((b + 1) % W) hb1, Nat.mod_add_mod]
      congr 1
      omega

/-- A merge whose precondition fails (one side already cleared) changes
nothing. -/
theorem merge_noop_of_unlinked {edf : edf_data} {node next : Nat}
    (h : ¬ linked edf node ∨ ¬ linked edf next) :
    edf_merge_request edf node next = edf := by
  unfold edf_merge_request
  rw [if_pos h]

/-- Unfolding of a merge whose candidate expires first: `node` takes
`next`'s place and fifo time, the merge counter advances, `next` is
cleared. -/
theorem merge_eq_of_lt {edf : edf_data} {node next : Nat}
    (hn : linked edf node) (hc : linked edf next)
    (h : time_before (edf.fifo_time next) (edf.fifo_time node) = true) :
    edf_merge_request edf node next =
      { edf with
        read_list := (insertAfter (edf.read_list.erase node) next node).erase next,
        write_list := (insertAfter (edf.write_list.erase node) next node).erase next,
        merged_requests := (edf.merged_requests + 1) % W,
        fifo_time := fun r => if r = node then edf.fifo_time next else edf.fifo_time r } := by
  unfold edf_merge_request
  rw [if_neg (by push_neg; exact ⟨hn, hc⟩), if_pos h]

/-- Unfolding of a merge whose candidate does not expire first: only
`next` is cleared. -/
theorem merge_eq_of_ge {edf : edf_data} {node next : Nat}
    (hn : linked edf node) (hc : linked edf next)
    (h : time_before (edf.fifo_time next) (edf.fifo_time node) = false) :
    edf_merge_request edf node next =
      { edf with
        read_list := edf.read_list.erase next,
        write_list := edf.write_list.erase next } := by
  unfold edf_merge_request
  rw [if_neg (by push_neg; exact ⟨hn, hc⟩), if_neg (by simp [h])]

/-- After a merge of two linked requests, the candidate is in no queue. -/
theorem merge_unlinks_next {edf : edf_data} {node next : Nat} (hWF : WF edf)
    (hn : linked edf node) (hc : linked edf next) :
    ¬ linked (edf_merge_request edf node next) next := by
  by_cases h : time_before (edf.fifo_time next) (edf.fifo_time node)
  · have hne : node ≠ next := by
      intro he
      rw [he, time_before_self] at h
      cases h
    rw [merge_eq_of_lt hn hc h]
    rintro (hl | hl)
    · exact (nodup_insertAfter (hWF.nodup_read.erase node)
        (hWF.nodup_read.not_mem_erase)).not_mem_erase hl
    · exact (nodup_insertAfter (hWF.nodup_write.erase node)
        (hWF.nodup_write.not_mem_erase)).not_mem_erase hl
  · rw [merge_eq_of_ge hn hc (by simpa using h)]
    rintro (hl | hl)
    · exact hWF.nodup_read.not_mem_erase hl
    · exact hWF.nodup_write.not_mem_erase hl

/-! ### Concrete states (the spec's §8 example configuration:
quantum 100, read weight 2, write weight 4) -/

/-- Fresh scheduler with the example tunables. -/
def ex0 : edf_data :=
  { read_list := []
    write_list := []
    batched_requests := 0
    merged_requests := 0
    timeslice_quanta := 100
    read_weight := 2
    write_weight := 4
    fifo_time := fun _ => 0 }

/-- Write request 1 admitted at tick 0 (deadline 400). -/
def exA : edf_data := edf_add_request ex0 1 Dir.write 0

/-- Then write request 2 admitted at tick 10 (deadline 410). -/
def exAB : edf_data := edf_add_request exA 2 Dir.write 10

/-- Read request 7 admitted at tick 0 (deadline 200). -/
def exR : edf_data := edf_add_request ex0 7 Dir.read 0

/-! ### The claims -/

/-- Claim C2, counterexample: in the spec's scenario 2 (writes with
deadlines 400 and 410), `Merge(A, B)` does not increment
`merged_requests` — the counter stays 0, while the claim demands
`old + 1 = 1`. -/
theorem merge_nonreposition_count_cex :
    (edf_merge_request exAB 1 2).merged_requests = 0 ∧
    exAB.merged_requests + 1 = 1 ∧ (0 : Nat) ≠ 1 := by
  refine ⟨by decide, by decide, by decide⟩

/-- Claim C2 as amended: with writes A (deadline 400) and B (deadline
410), `Merge(A, B)` keeps A's deadline 400, leaves A linked, unlinks B,
and leaves `merged_requests` unchanged (the counter moves only when the
merge repositions `node`). -/
theorem merge_nonreposition_amended :
    (edf_merge_request exAB 1 2).fifo_time 1 = 400 ∧
    linked (edf_merge_request exAB 1 2) 1 ∧
    ¬ linked (edf_merge_request exAB 1 2) 2 ∧
    (edf_merge_request exAB 1 2).merged_requests = exAB.merged_requests := by
  refine ⟨by decide, by decide, by decide, by decide⟩

/-- Claim C9: `edf_dispatch` never reads `force`; any value of `force`
yields the same count and the same state as `force = 0`. -/
theorem dispatch_force_irrelevant (edf : edf_data) (jiffies : Nat) (force : Int) :
    edf_dispatch edf jiffies force = edf_dispatch edf jiffies 0 := rfl

/-- Claim C10: a dispatch removes a contiguous prefix of each queue (what
remains is a suffix, in its old order), touches no fifo time, and leaves
the tunables and the merge counter alone. -/
theorem dispatch_frame (edf : edf_data) (jiffies : Nat) (force : Int) :
    (∃ p, edf.read_list = p ++ (edf_dispatch edf jiffies force).edf.read_list) ∧
    (∃ p, edf.write_list = p ++ (edf_dispatch edf jiffies force).edf.write_list) ∧
    (edf_dispatch edf jiffies force).edf.fifo_time = edf.fifo_time ∧
    (edf_dispatch edf jiffies force).edf.timeslice_quanta = edf.timeslice_quanta ∧
    (edf_dispatch edf jiffies force).edf.read_weight = edf.read_weight ∧
    (edf_dispatch edf jiffies force).edf.write_weight = edf.write_weight ∧
    (edf_dispatch edf jiffies force).edf.merged_requests = edf.merged_requests := by
  refine ⟨⟨edf.read_list.takeWhile (due edf.fifo_time jiffies), ?_⟩,
          ⟨edf.write_list.takeWhile (due edf.fifo_time jiffies), ?_⟩,
          rfl, rfl, rfl, rfl, rfl⟩
  · show edf.read_list = _ ++
      (edf_dispatch_queue edf.fifo_time jiffies edf.batched_requests edf.read_list).remaining
    rw [dispatch_queue_remaining]
    exact (List.takeWhile_append_dropWhile _ _).symm
  · show edf.write_list = _ ++ (edf_dispatch_queue edf.fifo_time jiffies
      (edf_dispatch_queue edf.fifo_time jiffies edf.batched_requests edf.read_list).batched
      edf.write_list).remaining
    rw [dispatch_queue_remaining]
    exact (List.takeWhile_append_dropWhile _ _).symm

/-- Claim C4: a dispatch walks the read queue first and the write queue
second, releases exactly the due prefix of each (stopping at the first
request whose deadline is still in the future), leaves the rest queued,
and returns the total released; two empty queues return zero. -/
theorem dispatch_protocol (edf : edf_data) (jiffies : Nat) (force : Int) :
    (edf_dispatch edf jiffies force).dispatched =
        edf.read_list.takeWhile (due edf.fifo_time jiffies) ++
        edf.write_list.takeWhile (due edf.fifo_time jiffies) ∧
    (edf_dispatch edf jiffies force).edf.read_list =
        edf.read_list.dropWhile (due edf.fifo_time jiffies) ∧
    (edf_dispatch edf jiffies force).edf.write_list =
        edf.write_list.dropWhile (due edf.fifo_time jiffies) ∧
    (edf_dispatch edf jiffies force).ret =
        (edf_dispatch edf jiffies force).dispatched.length ∧
    (edf.read_list = [] → edf.write_list = [] →
        (edf_dispatch edf jiffies force).ret = 0) := by
  refine ⟨?_, ?_, ?_, ?_, ?_⟩
  · show (edf_dispatch_queue edf.fifo_time jiffies edf.batched_requests
        edf.read_list).dispatched ++ _ = _
    rw [dispatch_queue_dispatched, dispatch_queue_dispatched]
  · show (edf_dispatch_queue edf.fifo_time jiffies edf.batched_requests
        edf.read_list).remaining = _
    rw [dispatch_queue_remaining]
  · show (edf_dispatch_queue edf.fifo_time jiffies _ edf.write_list).remaining = _
    rw [dispatch_queue_remaining]
  · show (edf_dispatch_queue edf.fifo_time jiffies edf.batched_requests
        edf.read_list).ctr + _ = _
    rw [dispatch_queue_ctr, dispatch_queue_ctr, dispatch_queue_dispatched,
      dispatch_queue_dispatched]
    show _ = ((edf_dispatch_queue edf.fifo_time jiffies edf.batched_requests
        edf.read_list).dispatched ++ _).length
    rw [dispatch_queue_dispatched, dispatch_queue_dispatched, List.length_append]
  · intro h1 h2
    show (edf_dispatch_queue edf.fifo_time jiffies edf.batched_requests
        edf.read_list).ctr + _ = 0
    rw [h1, h2]
    rfl

/-- Claim C4, witness: both queues empty gives a zero count. -/
theorem dispatch_protocol_witness : (edf_dispatch ex0 5 0).ret = 0 :=
  (dispatch_protocol ex0 5 0).2.2.2.2 rfl rfl

/-- Claim C1: merging two linked, distinct requests gives `node` the
earlier of the two deadlines (never raising its own), unlinks the
candidate and keeps `node` linked; when the candidate was strictly
earlier, `node` takes the candidate's queue position (the candidate is
replaced by `node` in place), otherwise every request keeps its position
and deadline and only the candidate is erased.  Stated for deadlines in
the non-wrapping range, where `time_before` is the numeric order. -/
theorem merge_deadline_policy (edf : edf_data) (node next : Nat)
    (hWF : WF edf) (hn : linked edf node) (hc : linked edf next)
    (hne : node ≠ next)
    (hdn : edf.fifo_time node < HW) (hdc : edf.fifo_time next < HW) :
    (edf_merge_request edf node next).fifo_time node =
        min (edf.fifo_time node) (edf.fifo_time next) ∧
    (edf_merge_request edf node next).fifo_time node ≤ edf.fifo_time node ∧
    ¬ linked (edf_merge_request edf node next) next ∧
    linked (edf_merge_request edf node next) node ∧
    (edf.fifo_time next < edf.fifo_time node →
      (edf_merge_request edf node next).read_list =
          (edf.read_list.erase node).map (fun r => if r = next then node else r) ∧
      (edf_merge_request edf node next).write_list =
          (edf.write_list.erase node).map (fun r => if r = next then node else r)) ∧
    (edf.fifo_time node ≤ edf.fifo_time next →
      (edf_merge_request edf node next).read_list = edf.read_list.erase next ∧
      (edf_merge_request edf node next).write_list = edf.write_list.erase next ∧
      (edf_merge_request edf node next).fifo_time = edf.fifo_time) := by
  by_cases hlt : edf.fifo_time next < edf.fifo_time node
  · have htb : time_before (edf.fifo_time next) (edf.fifo_time node) = true :=
      (time_before_iff_lt hdc hdn).mpr hlt
    have heq := merge_eq_of_lt hn hc htb
    refine ⟨?_, ?_, merge_unlinks_next hWF hn hc, ?_, fun _ => ⟨?_, ?_⟩,
      fun hge => absurd hlt (by omega)⟩
    · rw [heq]
      show (if node = node then edf.fifo_time next else edf.fifo_time node) = _
      rw [if_pos rfl]
      omega
    · rw [heq]
      show (if node = node then edf.fifo_time next else edf.fifo_time node) ≤ _
      rw [if_pos rfl]
      omega
    · rw [heq]
      rcases hc with hcr | hcw
      · left
        have h2 : next ∈ edf.read_list.erase node :=
          (hWF.nodup_read.mem_erase_iff).mpr ⟨Ne.symm hne, hcr⟩
        have h3 : node ∈ insertAfter (edf.read_list.erase node) next node :=
          mem_insertAfter.mpr (Or.inr ⟨h2, rfl⟩)
        have h4 : (insertAfter (edf.read_list.erase node) next node).Nodup :=
          nodup_insertAfter (hWF.nodup_read.erase node)
            hWF.nodup_read.not_mem_erase
        exact (h4.mem_erase_iff).mpr ⟨hne, h3⟩
      · right
        have h2 : next ∈ edf.write_list.erase node :=
          (hWF.nodup_write.mem_erase_iff).mpr ⟨Ne.symm hne, hcw⟩
        have h3 : node ∈ insertAfter (edf.write_list.erase node) next node :=
          mem_insertAfter.mpr (Or.inr ⟨h2, rfl⟩)
        have h4 : (insertAfter (edf.write_list.erase node) next node).Nodup :=
          nodup_insertAfter (hWF.nodup_write.erase node)
            hWF.nodup_write.not_mem_erase
        exact (h4.mem_erase_iff).mpr ⟨hne, h3⟩
    · rw [heq]
      show (insertAfter (edf.read_list.erase node) next node).erase next = _
      by_cases hnr : next ∈ edf.read_list
      · exact erase_insertAfter (hWF.nodup_read.erase node)
          ((hWF.nodup_read.mem_erase_iff).mpr ⟨Ne.symm hne, hnr⟩)
      · have h1 : next ∉ edf.read_list.erase node := fun hh =>
          hnr ((hWF.nodup_read.mem_erase_iff).mp hh).2
        rw [insertAfter_of_not_mem h1, map_subst_of_not_mem h1,
          List.erase_of_not_mem h1]
    · rw [heq]
      show (insertAfter (edf.write_list.erase node) next node).erase next = _
      by_cases hnw : next ∈ edf.write_list
      · exact erase_insertAfter (hWF.nodup_write.erase node)
          ((hWF.nodup_write.mem_erase_iff).mpr ⟨Ne.symm hne, hnw⟩)
      · have h1 : next ∉ edf.write_list.erase node := fun hh =>
          hnw ((hWF.nodup_write.mem_erase_iff).mp hh).2
        rw [insertAfter_of_not_mem h1, map_subst_of_not_mem h1,
          List.erase_of_not_mem h1]
  · have htb : time_before (edf.fifo_time next) (edf.fifo_time node) = false := by
      cases hb : time_before (edf.fifo_time next) (edf.fifo_time node) with
      | false => rfl
      | true => exact absurd ((time_before_iff_lt hdc hdn).mp hb) hlt
    have heq := merge_eq_of_ge hn hc htb
    refine ⟨?_, ?_, merge_unlinks_next hWF hn hc, ?_,
      fun hlt2 => absurd hlt2 hlt, fun _ => ⟨by rw [heq], by rw [heq], by rw [heq]⟩⟩
    · rw [heq]
      show edf.fifo_time node = _
      omega
    · rw [heq]
    · rw [heq]
      rcases hn with hnr | hnw
      · exact Or.inl ((hWF.nodup_read.mem_erase_iff).mpr ⟨hne, hnr⟩)
      · exact Or.inr ((hWF.nodup_write.mem_erase_iff).mpr ⟨hne, hnw⟩)

/-- A read queue holding requests 3 (deadline 500) and 4 (deadline 450). -/
def exM : edf_data :=
  { ex0 with
    read_list := [3, 4]
    fifo_time := fun r => if r = 3 then 500 else if r = 4 then 450 else 0 }

/-- Claim C1, witness: merging 3 with the earlier 4 in `exM`. -/
theorem merge_deadline_policy_witness :
    (edf_merge_request exM 3 4).fifo_time 3 =
      min (exM.fifo_time 3) (exM.fifo_time 4) ∧
    ¬ linked (edf_merge_request exM 3 4) 4 ∧
    (edf_merge_request exM 3 4).read_list =
      (exM.read_list.erase 3).map (fun r => if r = 4 then 3 else r) := by
  have h := merge_deadline_policy exM 3 4
    ⟨by decide, by decide, by decide⟩ (by decide) (by decide) (by decide)
    (by decide) (by decide)
  exact ⟨h.1, h.2.2.1, (h.2.2.2.2.1 (by decide)).1⟩

/-- Claim C7: a merge with an unlinked argument changes nothing at all;
and after a successful merge the candidate is unlinked, so any further
merge with it on either side is a no-op. -/
theorem merge_precondition_noop (edf : edf_data) (node next y : Nat)
    (hWF : WF edf) :
    (¬ linked edf node ∨ ¬ linked edf next →
        edf_merge_request edf node next = edf) ∧
    (linked edf node → linked edf next →
        ¬ linked (edf_merge_request edf node next) next ∧
        edf_merge_request (edf_merge_request edf node next) next y =
          edf_merge_request edf node next ∧
        edf_merge_request (edf_merge_request edf node next) y next =
          edf_merge_request edf node next) := by
  refine ⟨merge_noop_of_unlinked, fun hn hc => ?_⟩
  have hun := merge_unlinks_next hWF hn hc
  exact ⟨hun, merge_noop_of_unlinked (Or.inl hun),
    merge_noop_of_unlinked (Or.inr hun)⟩

/-- Claim C7, witness: merging with the never-admitted request 5 is a
no-op on `exAB`, and re-merging the already-merged-away request 2 is a
no-op too. -/
theorem merge_precondition_noop_witness :
    edf_merge_request exAB 5 1 = exAB ∧
    edf_merge_request (edf_merge_request exAB 1 2) 2 1 =
      edf_merge_request exAB 1 2 := by
  have h1 := merge_precondition_noop exAB 5 1 1 ⟨by decide, by decide, by decide⟩
  have h2 := merge_precondition_noop exAB 1 2 1 ⟨by decide, by decide, by decide⟩
  exact ⟨h1.1 (Or.inl (by decide)), (h2.2 (by decide) (by decide)).2.2⟩

/-- Claim C6: admitting an unlinked request at time `now` stores
`now + timeslice_quanta * weight(direction)` as its deadline and appends
it to the tail of its direction's queue, leaving the other queue alone.
Stated for a non-overflowing deadline computation. -/
theorem add_request_spec (edf : edf_data) (rq : Nat) (dir : Dir) (jiffies : Nat)
    (hnl : ¬ linked edf rq)
    (hb : jiffies + edf.timeslice_quanta * dir_weight edf dir < W) :
    (edf_add_request edf rq dir jiffies).fifo_time rq =
        jiffies + edf.timeslice_quanta * dir_weight edf dir ∧
    (dir = Dir.read →
        (edf_add_request edf rq dir jiffies).read_list = edf.read_list ++ [rq] ∧
        (edf_add_request edf rq dir jiffies).write_list = edf.write_list) ∧
    (dir = Dir.write →
        (edf_add_request edf rq dir jiffies).write_list = edf.write_list ++ [rq] ∧
        (edf_add_request edf rq dir jiffies).read_list = edf.read_list) := by
  cases dir with
  | read =>
    refine ⟨?_, fun _ => ⟨rfl, rfl⟩, fun h => Dir.noConfusion h⟩
    show (if rq = rq then edf_read_expiry edf jiffies else edf.fifo_time rq) = _
    rw [if_pos rfl]
    exact Nat.mod_eq_of_lt hb
  | write =>
    refine ⟨?_, fun h => Dir.noConfusion h, fun _ => ⟨rfl, rfl⟩⟩
    show (if rq = rq then edf_write_expiry edf jiffies else edf.fifo_time rq) = _
    rw [if_pos rfl]
    exact Nat.mod_eq_of_lt hb

/-- Claim C6, witness: the write admitted at tick 0 in `ex0` gets
deadline `0 + 100 * 4 = 400` and lands at the tail of the write queue. -/
theorem add_request_spec_witness :
    (edf_add_request ex0 1 Dir.write 0).fifo_time 1 = 400 ∧
    (edf_add_request ex0 1 Dir.write 0).write_list = [1] ∧
    (edf_add_request ex0 1 Dir.write 0).read_list = [] := by
  have h := add_request_spec ex0 1 Dir.write 0 (by decide) (by decide)
  refine ⟨by rw [h.1]; rfl, ?_, (h.2.2 rfl).2⟩
  rw [(h.2.2 rfl).1]
  rfl

/-- Claim C8, counterexample: with `HZ = 100`, writing `2^31` (one above
`max_int`) to `timeslice_quanta` stores the tick conversion of the clamped
millisecond value, `msecs_to_jiffies(INT_MAX) = 214748365`, and not
`max_int = 2147483647` as the claim states. -/
theorem sysfs_quanta_above_max_cex :
    (edf_sysfs_timeslice_quanta_store 100 ex0 2147483648 3).1.timeslice_quanta =
      214748365 ∧
    (214748365 : Nat) ≠ 2147483647 := by
  exact ⟨by decide, by decide⟩

/-- Claim C8 as amended: an administrative write of `v` to `read_weight`
or `write_weight` stores `v` clamped to `[0, INT_MAX]` (below 0 stores 0,
above `INT_MAX` stores `INT_MAX`) with no other validation and reports the
whole input consumed; a write to `timeslice_quanta` applies the same clamp
to the millisecond input but stores its tick conversion, so a negative
input stores 0 and an input above `INT_MAX` stores
`msecs_to_jiffies(INT_MAX)` — not `INT_MAX`; writes to the two counters
report success and change nothing; no store touches either counter. -/
theorem sysfs_store_amended (edf : edf_data) (hz : Nat) (v : Int) (c : Nat) :
    (v < 0 →
        (edf_sysfs_read_weight_store edf v c).1.read_weight = 0 ∧
        (edf_sysfs_write_weight_store edf v c).1.write_weight = 0 ∧
        (edf_sysfs_timeslice_quanta_store hz edf v c).1.timeslice_quanta = 0) ∧
    (INT_MAX < v →
        (edf_sysfs_read_weight_store edf v c).1.read_weight = INT_MAX.toNat ∧
        (edf_sysfs_write_weight_store edf v c).1.write_weight = INT_MAX.toNat ∧
        (edf_sysfs_timeslice_quanta_store hz edf v c).1.timeslice_quanta =
          msecs_to_jiffies hz INT_MAX.toNat) ∧
    (0 ≤ v → v ≤ INT_MAX →
        (edf_sysfs_read_weight_store edf v c).1.read_weight = v.toNat ∧
        (edf_sysfs_write_weight_store edf v c).1.write_weight = v.toNat ∧
        (edf_sysfs_timeslice_quanta_store hz edf v c).1.timeslice_quanta =
          msecs_to_jiffies hz v.toNat) ∧
    (edf_sysfs_read_weight_store edf v c).2 = c ∧
    (edf_sysfs_write_weight_store edf v c).2 = c ∧
    (edf_sysfs_timeslice_quanta_store hz edf v c).2 = c ∧
    edf_sysfs_batched_requests_store edf v c = (edf, c) ∧
    edf_sysfs_merged_requests_store edf v c = (edf, c) ∧
    (edf_sysfs_read_weight_store edf v c).1.batched_requests = edf.batched_requests ∧
    (edf_sysfs_read_weight_store edf v c).1.merged_requests = edf.merged_requests ∧
    (edf_sysfs_write_weight_store edf v c).1.batched_requests = edf.batched_requests ∧
    (edf_sysfs_write_weight_store edf v c).1.merged_requests = edf.merged_requests ∧
    (edf_sysfs_timeslice_quanta_store hz edf v c).1.batched_requests =
      edf.batched_requests ∧
    (edf_sysfs_timeslice_quanta_store hz edf v c).1.merged_requests =
      edf.merged_requests := by
  have hcl1 : v < 0 → store_clamped v = 0 := fun h => by
    unfold store_clamped
    rw [if_pos h]
  have hcl2 : INT_MAX < v → store_clamped v = INT_MAX := fun h => by
    unfold store_clamped
    unfold INT_MAX at h ⊢
    rw [if_neg (by omega), if_pos (by omega)]
  have hcl3 : 0 ≤ v → v ≤ INT_MAX → store_clamped v = v := fun h1 h2 => by
    unfold store_clamped
    rw [if_neg (by omega), if_neg (by omega)]
  refine ⟨fun h => ⟨?_, ?_, ?_⟩, fun h => ⟨?_, ?_, ?_⟩, fun h1 h2 => ⟨?_, ?_, ?_⟩,
    rfl, rfl, rfl, rfl, rfl, rfl, rfl, rfl, rfl, rfl, rfl⟩
  · show (store_clamped v).toNat = 0
    rw [hcl1 h]
    rfl
  · show (store_clamped v).toNat = 0
    rw [hcl1 h]
    rfl
  · show msecs_to_jiffies hz (store_clamped v).toNat = 0
    rw [hcl1 h]
    show (0 * hz + 999) / 1000 = 0
    rw [Nat.zero_mul]
  · show (store_clamped v).toNat = INT_MAX.toNat
    rw [hcl2 h]
  · show (store_clamped v).toNat = INT_MAX.toNat
    rw [hcl2 h]
  · show msecs_to_jiffies hz (store_clamped v).toNat =
      msecs_to_jiffies hz INT_MAX.toNat
    rw [hcl2 h]
  · show (store_clamped v).toNat = v.toNat
    rw [hcl3 h1 h2]
  · show (store_clamped v).toNat = v.toNat
    rw [hcl3 h1 h2]
  · show msecs_to_jiffies hz (store_clamped v).toNat = msecs_to_jiffies hz v.toNat
    rw [hcl3 h1 h2]

/-- Claim C8, witness: a negative write clamps to 0, an over-`INT_MAX`
weight write clamps to `INT_MAX`, an over-`INT_MAX` timeslice write (at
`HZ = 100`) stores the tick conversion of `INT_MAX`, an in-range write is
kept verbatim, and a counter write succeeds without effect. -/
theorem sysfs_store_amended_witness :
    (edf_sysfs_read_weight_store ex0 (-5) 3).1.read_weight = 0 ∧
    (edf_sysfs_read_weight_store ex0 9999999999 3).1.read_weight = 2147483647 ∧
    (edf_sysfs_timeslice_quanta_store 100 ex0 9999999999 3).1.timeslice_quanta =
      214748365 ∧
    (edf_sysfs_write_weight_store ex0 7 3).1.write_weight = 7 ∧
    edf_sysfs_batched_requests_store ex0 7 3 = (ex0, 3) := by
  have h1 := sysfs_store_amended ex0 1000 (-5) 3
  have h2 := sysfs_store_amended ex0 1000 9999999999 3
  have h3 := sysfs_store_amended ex0 1000 7 3
  have h4 := sysfs_store_amended ex0 100 9999999999 3
  refine ⟨(h1.1 (by decide)).1, ?_, ?_, ?_, h3.2.2.2.2.2.2.2.1⟩
  · rw [(h2.2.1 (by decide)).1]
    rfl
  · rw [(h4.2.1 (by decide)).2.2]
    rfl
  · rw [(h3.2.2.1 (by decide) (by decide)).2.1]
    rfl

/-- Claim C3: counter accounting.  A dispatch advances `batched_requests`
by exactly the count it returns (exactly, absent 32-bit counter wrap) and
never touches `merged_requests`; a merge of two linked requests advances
`merged_requests` by exactly 1 when the candidate's deadline is strictly
earlier (the repositioning case) and by 0 otherwise, and never touches
`batched_requests`; admission and every administrative store leave both
counters unchanged. -/
theorem counter_accounting :
    (∀ (edf : edf_data) (jiffies : Nat) (force : Int),
        edf.batched_requests < W →
        (edf_dispatch edf jiffies force).edf.batched_requests =
          (edf.batched_requests + (edf_dispatch edf jiffies force).ret) % W ∧
        (edf.batched_requests + (edf_dispatch edf jiffies force).ret < W →
          (edf_dispatch edf jiffies force).edf.batched_requests =
            edf.batched_requests + (edf_dispatch edf jiffies force).ret) ∧
        (edf_dispatch edf jiffies force).edf.merged_requests =
          edf.merged_requests) ∧
    (∀ (edf : edf_data) (node next : Nat),
        linked edf node → linked edf next →
        edf.fifo_time node < HW → edf.fifo_time next < HW →
        (edf_merge_request edf node next).batched_requests =
          edf.batched_requests ∧
        (edf.fifo_time next < edf.fifo_time node →
          (edf_merge_request edf node next).merged_requests =
            (edf.merged_requests + 1) % W ∧
          (edf.merged_requests + 1 < W →
            (edf_merge_request edf node next).merged_requests =
              edf.merged_requests + 1)) ∧
        (edf.fifo_time node ≤ edf.fifo_time next →
          (edf_merge_request edf node next).merged_requests =
            edf.merged_requests)) ∧
    (∀ (edf : edf_data) (rq : Nat) (dir : Dir) (jiffies : Nat),
        (edf_add_request edf rq dir jiffies).batched_requests =
          edf.batched_requests ∧
        (edf_add_request edf rq dir jiffies).merged_requests =
          edf.merged_requests) ∧
    (∀ (edf : edf_data) (hz : Nat) (v : Int) (c : Nat),
        (edf_sysfs_read_weight_store edf v c).1.batched_requests =
          edf.batched_requests ∧
        (edf_sysfs_read_weight_store edf v c).1.merged_requests =
          edf.merged_requests ∧
        (edf_sysfs_write_weight_store edf v c).1.batched_requests =
          edf.batched_requests ∧
        (edf_sysfs_write_weight_store edf v c).1.merged_requests =
          edf.merged_requests ∧
        (edf_sysfs_timeslice_quanta_store hz edf v c).1.batched_requests =
          edf.batched_requests ∧
        (edf_sysfs_timeslice_quanta_store hz edf v c).1.merged_requests =
          edf.merged_requests ∧
        (edf_sysfs_batched_requests_store edf v c).1.batched_requests =
          edf.batched_requests ∧
        (edf_sysfs_merged_requests_store edf v c).1.merged_requests =
          edf.merged_requests) := by
  refine ⟨?_, ?_, ?_, ?_⟩
  · intro edf jiffies force hb
    have hW : 0 < W := by unfold W; omega
    have h1 := dispatch_queue_batched edf.fifo_time jiffies edf.read_list
      edf.batched_requests hb
    have hlt1 : (edf_dispatch_queue edf.fifo_time jiffies edf.batched_requests
        edf.read_list).batched < W := by
      rw [h1]
      exact Nat.mod_lt _ hW
    have h2 := dispatch_queue_batched edf.fifo_time jiffies edf.write_list _ hlt1
    have hbat : (edf_dispatch edf jiffies force).edf.batched_requests =
        (edf_dispatch_queue edf.fifo_time jiffies
          (edf_dispatch_queue edf.fifo_time jiffies edf.batched_requests
            edf.read_list).batched edf.write_list).batched := rfl
    have hret : (edf_dispatch edf jiffies force).ret =
        (edf_dispatch_queue edf.fifo_time jiffies edf.batched_requests
          edf.read_list).ctr +
        (edf_dispatch_queue edf.fifo_time jiffies
          (edf_dispatch_queue edf.fifo_time jiffies edf.batched_requests
            edf.read_list).batched edf.write_list).ctr := rfl
    have hE : (edf_dispatch edf jiffies force).edf.batched_requests =
        (edf.batched_requests + (edf_dispatch edf jiffies force).ret) % W := by
      rw [hbat, hret, h2, h1, Nat.mod_add_mod]
      congr 1
      omega
    exact ⟨hE, fun hlt => by rw [hE]; exact Nat.mod_eq_of_lt hlt, rfl⟩
  · intro edf node next hn hc hdn hdc
    by_cases hlt : edf.fifo_time next < edf.fifo_time node
    · have htb : time_before (edf.fifo_time next) (edf.fifo_time node) = true :=
        (time_before_iff_lt hdc hdn).mpr hlt
      have heq := merge_eq_of_lt hn hc htb
      refine ⟨by rw [heq], fun _ => ⟨by rw [heq], fun hw => ?_⟩,
        fun hge => absurd hlt (by omega)⟩
      rw [heq]
      show (edf.merged_requests + 1) % W = _
      exact Nat.mod_eq_of_lt hw
    · have htb : time_before (edf.fifo_time next) (edf.fifo_time node) = false := by
        cases hb : time_before (edf.fifo_time next) (edf.fifo_time node) with
        | false => rfl
        | true => exact absurd ((time_before_iff_lt hdc hdn).mp hb) hlt
      have heq := merge_eq_of_ge hn hc htb
      exact ⟨by rw [heq], fun hlt2 => absurd hlt2 hlt, fun _ => by rw [heq]⟩
  · intro edf rq dir jiffies
    cases dir with
    | read => exact ⟨rfl, rfl⟩
    | write => exact ⟨rfl, rfl⟩
  · intro edf hz v c
    exact ⟨rfl, rfl, rfl, rfl, rfl, rfl, rfl, rfl⟩

/-- Claim C3, witness: dispatching `exR` at tick 200 advances
`batched_requests` by the returned count, and the non-repositioning merge
of `exAB` leaves `merged_requests` unchanged. -/
theorem counter_accounting_witness :
    (edf_dispatch exR 200 0).edf.batched_requests =
      exR.batched_requests + (edf_dispatch exR 200 0).ret ∧
    (edf_merge_request exAB 1 2).merged_requests = exAB.merged_requests := by
  have h := counter_accounting
  refine ⟨(h.1 exR 200 0 (by decide)).2.1 (by decide), ?_⟩
  exact (h.2.1 exAB 1 2 (by decide) (by decide) (by decide) (by decide)).2.2
    (by decide)

/-- A due request's fifo time is at most `jiffies` (non-wrapping range). -/
theorem fifo_le_of_due {ft : Nat → Nat} {jiffies x : Nat} (hj : jiffies < HW)
    (hx : ft x < HW) (hd : due ft jiffies x = true) : ft x ≤ jiffies := by
  unfold due at hd
  by_contra hgt
  push_neg at hgt
  rw [(time_before_iff_lt hj hx).mpr hgt] at hd
  cases hd

/-- In a queue sorted by fifo time (bounded, non-wrapping), every member
whose fifo time is at most `jiffies` lands in the due prefix. -/
theorem mem_takeWhile_due_of_sorted {ft : Nat → Nat} {jiffies : Nat}
    {l : List Nat} (hj : jiffies < HW) (hb : ∀ x ∈ l, ft x < HW)
    (hs : l.Pairwise (fun a b => ft a ≤ ft b)) :
    ∀ x ∈ l, ft x ≤ jiffies → x ∈ l.takeWhile (due ft jiffies) := by
  induction l with
  | nil => intro x hx; cases hx
  | cons a rest ih =>
    intro x hx hxle
    have hfa : ft a ≤ jiffies := by
      rcases List.mem_cons.mp hx with rfl | hx'
      · exact hxle
      · exact le_trans ((List.pairwise_cons.mp hs).1 x hx') hxle
    have hdue_a : due ft jiffies a = true := by
      unfold due
      have hnt : ¬ time_before jiffies (ft a) = true := by
        rw [time_before_iff_lt hj (hb a (List.mem_cons_self a rest))]
        omega
      simp [hnt]
    rw [List.takeWhile_cons, if_pos hdue_a]
    rcases List.mem_cons.mp hx with rfl | hx'
    · exact List.mem_cons_self _ _
    · exact List.mem_cons_of_mem _
        (ih (fun y hy => hb y (List.mem_cons_of_mem a hy))
          (List.pairwise_cons.mp hs).2 x hx' hxle)

/-- A read queue holding 8 (deadline 160) ahead of 9 (deadline 150):
reachable when weights change between admissions. -/
def exS : edf_data :=
  { ex0 with
    read_list := [8, 9]
    fifo_time := fun r => if r = 8 then 160 else if r = 9 then 150 else 0 }

/-- Claim C5, counterexample: at `now = 150`, request 9's deadline equals
`now`, yet the dispatch releases nothing, because the earlier-queued
request 8 is still in the future and stops the walk — so "a request whose
deadline equals now is released" fails as stated. -/
theorem equal_deadline_stranded_cex :
    exS.fifo_time 9 = 150 ∧ (9 : Nat) ∈ exS.read_list ∧
    (edf_dispatch exS 150 0).dispatched = [] ∧
    (edf_dispatch exS 150 0).ret = 0 := by
  refine ⟨by decide, by decide, by decide, by decide⟩

/-- Claim C5 as amended: no request released by a dispatch has a deadline
after `now`; a request whose deadline is at most `now` (in particular,
equal to it) is released provided its queue is sorted by deadline — the
spec's standing invariant — and a queue whose head is still in the future
releases nothing and is left whole.  Stated in the non-wrapping range. -/
theorem dispatch_no_early (edf : edf_data) (jiffies : Nat) (force : Int)
    (hj : jiffies < HW)
    (hr : ∀ x ∈ edf.read_list, edf.fifo_time x < HW)
    (hw : ∀ x ∈ edf.write_list, edf.fifo_time x < HW) :
    (∀ x ∈ (edf_dispatch edf jiffies force).dispatched,
        edf.fifo_time x ≤ jiffies) ∧
    (edf.read_list.Pairwise (fun a b => edf.fifo_time a ≤ edf.fifo_time b) →
      ∀ x ∈ edf.read_list, edf.fifo_time x ≤ jiffies →
        x ∈ (edf_dispatch edf jiffies force).dispatched) ∧
    (edf.write_list.Pairwise (fun a b => edf.fifo_time a ≤ edf.fifo_time b) →
      ∀ x ∈ edf.write_list, edf.fifo_time x ≤ jiffies →
        x ∈ (edf_dispatch edf jiffies force).dispatched) ∧
    (∀ a, edf.read_list.head? = some a → jiffies < edf.fifo_time a →
      (edf_dispatch edf jiffies force).edf.read_list = edf.read_list) ∧
    (∀ a, edf.write_list.head? = some a → jiffies < edf.fifo_time a →
      (edf_dispatch edf jiffies force).edf.write_list = edf.write_list) := by
  have heqd : (edf_dispatch edf jiffies force).dispatched =
      edf.read_list.takeWhile (due edf.fifo_time jiffies) ++
      edf.write_list.takeWhile (due edf.fifo_time jiffies) := by
    show (edf_dispatch_queue edf.fifo_time jiffies edf.batched_requests
        edf.read_list).dispatched ++ _ = _
    rw [dispatch_queue_dispatched, dispatch_queue_dispatched]
  refine ⟨?_, ?_, ?_, ?_, ?_⟩
  · intro x hx
    rw [heqd] at hx
    rcases List.mem_append.mp hx with h | h
    · exact fifo_le_of_due hj (hr x ((List.takeWhile_sublist _).subset h))
        (List.mem_takeWhile_imp h)
    · exact fifo_le_of_due hj (hw x ((List.takeWhile_sublist _).subset h))
        (List.mem_takeWhile_imp h)
  · intro hs x hx hxle
    rw [heqd]
    exact List.mem_append_left _
      (mem_takeWhile_due_of_sorted hj hr hs x hx hxle)
  · intro hs x hx hxle
    rw [heqd]
    exact List.mem_append_right _
      (mem_takeWhile_due_of_sorted hj hw hs x hx hxle)
  · intro a ha hgt
    show (edf_dispatch_queue edf.fifo_time jiffies edf.batched_requests
        edf.read_list).remaining = _
    rw [dispatch_queue_remaining]
    cases hl : edf.read_list with
    | nil => rfl
    | cons b t =>
      rw [hl] at ha
      have hab : b = a := by
        simpa using ha
      subst hab
      have hdf : due edf.fifo_time jiffies b = false := by
        unfold due
        rw [(time_before_iff_lt hj
          (hr b (by rw [hl]; exact List.mem_cons_self b t))).mpr hgt]
        rfl
      rw [List.dropWhile_cons, if_neg (by simp [hdf])]
  · intro a ha hgt
    show (edf_dispatch_queue edf.fifo_time jiffies _ edf.write_list).remaining = _
    rw [dispatch_queue_remaining]
    cases hl : edf.write_list with
    | nil => rfl
    | cons b t =>
      rw [hl] at ha
      have hab : b = a := by
        simpa using ha
      subst hab
      have hdf : due edf.fifo_time jiffies b = false := by
        unfold due
        rw [(time_before_iff_lt hj
          (hw b (by rw [hl]; exact List.mem_cons_self b t))).mpr hgt]
        rfl
      rw [List.dropWhile_cons, if_neg (by simp [hdf])]

/-- Claim C5, witness: the read admitted at tick 0 (deadline 200) is
released at `now = 200` and stays queued at `now = 150`. -/
theorem dispatch_no_early_witness :
    (7 : Nat) ∈ (edf_dispatch exR 200 0).dispatched ∧
    (edf_dispatch exR 150 0).edf.read_list = exR.read_list := by
  have h1 := dispatch_no_early exR 200 0 (by decide) (by decide) (by decide)
  have h2 := dispatch_no_early exR 150 0 (by decide) (by decide) (by decide)
  exact ⟨h1.2.1 (by decide) 7 (by decide) (by decide),
    h2.2.2.2.1 7 (by decide) (by decide)⟩
